import Mathlib

/-!
Shallow embedding of the `yact` terminal dashboard (`src/yact/src/ui.rs`,
with its input bindings in `src/yact/src/main.rs`), and proofs about the
page-navigation state machine, the scroll controller, the config loader and
the log-ingestion pipeline.

Strings are Lean `String`s; the Rust `str` methods the code uses
(`lines`, `starts_with`, `strip_prefix`, `trim_start`, `join`) are modelled
by explicit functions over the underlying character lists.  The network is
modelled by passing each operation the result the blocking bridge would
return (`ConfigsResult`, `LogsResult`), so the fallible HTTP calls become
explicit inputs.  The `u16` field `scroll_offset` is a `Nat` with the
saturation bound `65535` written out.
-/

namespace Yact

/-- Splitting of a character list at `'\n'`: the first segment, and the later
segments.  `splitNl` below glues the two components, so the segment list is
nonempty by construction. -/
def splitNlCore : List Char → List Char × List (List Char)
  | [] => ([], [])
  | c :: rest =>
    let p := splitNlCore rest
    if c = '\n' then ([], p.1 :: p.2) else (c :: p.1, p.2)

/-- All the `'\n'`-separated segments of a character list, in order. -/
def splitNl (xs : List Char) : List (List Char) :=
  (splitNlCore xs).1 :: (splitNlCore xs).2

/-- Removal of one trailing `'\r'`, as Rust's `str::lines` does to a segment
that was terminated by a `'\n'` (a `"\r\n"` line ending). -/
def stripCr (seg : List Char) : List Char :=
  if seg.getLast? = some '\r' then seg.dropLast else seg

/-- Rust `str::lines` on the segment list: every segment but the last was
`'\n'`-terminated, so it loses one trailing `'\r'`; a final empty segment
(the text ended in `'\n'`, or was empty) yields no line. -/
def linesFromSegs : List (List Char) → List (List Char)
  | [] => []
  | [seg] => if seg = [] then [] else [seg]
  | seg :: rest => stripCr seg :: linesFromSegs rest

/-- Rust `str::lines`, as the list of line strings. -/
def rustLines (s : String) : List String :=
  (linesFromSegs (splitNl s.data)).map String.mk

/-- Rust `[String]::join("\n")` / the newline joins written with `format!`. -/
def joinNl : List String → String
  | [] => ""
  | [x] => x
  | x :: xs => x ++ "\n" ++ joinNl xs

/-- Rust `str::starts_with` for a string pattern. -/
def rustStartsWith (s pat : String) : Bool :=
  pat.data.isPrefixOf s.data

/-- Rust `line.strip_prefix(pat).unwrap_or(line)`: the line with `pat`
removed in front when it is a prefix, the line itself otherwise. -/
def rustStripPrefixOr (s pat : String) : String :=
  if pat.data.isPrefixOf s.data then String.mk (s.data.drop pat.data.length) else s

/-- Rust `str::trim_start`, on the ASCII whitespace the log lines can hold
(`Char.isWhitespace` covers space, tab, carriage return and newline). -/
def rustTrimStart (s : String) : String :=
  String.mk (s.data.dropWhile fun c => c.isWhitespace)

/-- Pages of `ui.rs` (`enum AppPage`). -/
inductive AppPage
  | Proxy
  | Log
  | Settings
  | Config
  deriving DecidableEq, Repr

/-- `AppPage::index`. -/
def AppPage.index : AppPage → Nat
  | .Proxy => 0
  | .Log => 1
  | .Settings => 2
  | .Config => 3

/-- `AppPage::from_index` (the source reduces `index` modulo 4). -/
def AppPage.from_index (index : Nat) : AppPage :=
  match index % 4 with
  | 0 => .Proxy
  | 1 => .Log
  | 2 => .Settings
  | _ => .Config

/-- `AppPage::next`. -/
def AppPage.next (p : AppPage) : AppPage :=
  AppPage.from_index (p.index + 1)

/-- `AppPage::previous`. -/
def AppPage.previous (p : AppPage) : AppPage :=
  AppPage.from_index (p.index + 3)

/-- The external `ratatui` `ScrollbarState`, reduced to the two fields
`ui.rs` sets: the content length given to `ScrollbarState::new` and the
position set by `ScrollbarState::position`. -/
structure ScrollbarState where
  content_length : Nat
  pos : Nat
  deriving DecidableEq, Repr

/-- `ScrollbarState::new(content_length)`, position starting at 0. -/
def ScrollbarState.new (content_length : Nat) : ScrollbarState :=
  ⟨content_length, 0⟩

/-- `ScrollbarState::position(p)`: the state with its position replaced. -/
def ScrollbarState.setPosition (st : ScrollbarState) (p : Nat) : ScrollbarState :=
  { st with pos := p }

/-- The external `serde_json::Value`, modelled by its pretty-printed
rendering: besides equality, the only observation `ui.rs` makes of a config
document is `serde_json::to_string_pretty`. -/
structure Value where
  pretty : String
  deriving DecidableEq, Repr

/-- `serde_json::to_string_pretty(v).unwrap_or_default()` on the model. -/
def to_string_pretty (v : Value) : String :=
  v.pretty

/-- `struct AppState` of `ui.rs`.  The `runtime` field (the tokio blocking
bridge) is not state the code observes; it is modelled by passing each
network operation its result explicitly. -/
structure AppState where
  current_page : AppPage
  configs : Option Value
  loading : Bool
  error : Option String
  scroll_offset : Nat
  scroll_state : ScrollbarState
  stdout_output : String
  logs : Option String
  logs_loading : Bool
  deriving DecidableEq, Repr

/-- `AppState::new`. -/
def AppState.new : AppState :=
  { current_page := .Proxy
    configs := none
    loading := false
    error := none
    scroll_offset := 0
    scroll_state := ScrollbarState.new 0
    stdout_output := ""
    logs := none
    logs_loading := false }

/-- Outcome of `MihomoClient::get_configs` as awaited by the bridge. -/
inductive ConfigsResult
  | ok (configs : Value)
  | err (e : String)

/-- Outcome of `MihomoClient::get_logs` followed by `Response::text`:
the fetch can fail, the body read can fail, or a raw SSE payload arrives. -/
inductive LogsResult
  | ok (text : String)
  | readErr (e : String)
  | fetchErr (e : String)

/-- Body of the `for` loop of `AppState::parse_sse_logs`, as the step
function of the fold over the lines: SSE meta lines (`event:`, `id:`,
`retry:`) are skipped, a `data:` prefix is stripped together with the
whitespace after it, and empty contents are dropped. -/
def sseLineStep (acc : List String) (line : String) : List String :=
  if rustStartsWith line "event:" || rustStartsWith line "id:" || rustStartsWith line "retry:" then
    acc
  else
    let content :=
      if rustStartsWith line "data:" then rustTrimStart (rustStripPrefixOr line "data:")
      else line
    if content = "" then acc else acc ++ [content]

/-- The `lines` vector `AppState::parse_sse_logs` accumulates. -/
def sseLines (sse_data : String) : List String :=
  (rustLines sse_data).foldl sseLineStep []

/-- `AppState::parse_sse_logs`. -/
def parse_sse_logs (sse_data : String) : String :=
  joinNl (sseLines sse_data)

/-- `AppState::limit_log_lines`. -/
def limit_log_lines (logs : String) (max_lines : Nat) : String :=
  let all_lines := rustLines logs
  if all_lines.length ≤ max_lines then logs
  else
    let start_index := all_lines.length - max_lines
    joinNl (all_lines.drop start_index)

/-- `AppState::load_logs`, with the bridge's outcome passed in. -/
def AppState.load_logs (s : AppState) (result : LogsResult) : AppState :=
  let s1 := { s with logs_loading := true }
  let s2 :=
    match result with
    | .ok text =>
      let parsed_logs := parse_sse_logs text
      let limited_logs := limit_log_lines parsed_logs 1000
      match s1.logs with
      | some existing =>
        let combined := existing ++ "\n" ++ limited_logs
        { s1 with logs := some (limit_log_lines combined 1000) }
      | none => { s1 with logs := some limited_logs }
    | .readErr e =>
      let error_msg := "Error reading logs: " ++ e
      match s1.logs with
      | some existing => { s1 with logs := some (existing ++ "\n" ++ error_msg) }
      | none => { s1 with logs := some error_msg }
    | .fetchErr e =>
      let error_msg := "Failed to load logs: " ++ e
      match s1.logs with
      | some existing => { s1 with logs := some (existing ++ "\n" ++ error_msg) }
      | none => { s1 with logs := some error_msg }
  { s2 with logs_loading := false }

/-- `AppState::load_configs`, with the bridge's outcome passed in.  On
success the scrollbar bound is recomputed from the pretty-printed line count
(`saturating_sub(1)` is `Nat` subtraction). -/
def AppState.load_configs (s : AppState) (result : ConfigsResult) : AppState :=
  let s1 := { s with loading := true, error := none }
  let s2 :=
    match result with
    | .ok configs =>
      let s1 := { s1 with configs := some configs }
      match s1.configs with
      | some c =>
        let text := to_string_pretty c
        let lines := (rustLines text).length
        { s1 with scroll_state := ScrollbarState.new (lines - 1) }
      | none => s1
    | .err e => { s1 with error := some ("Failed to load configs: " ++ e) }
  { s2 with loading := false }

/-- `AppState::next_page`.  The second component counts the `load_configs`
calls the transition performs (0 or 1), so the auto-load side effect is
observable in the model; `r` is the outcome such a call would get. -/
def AppState.next_page (s : AppState) (r : ConfigsResult) : AppState × Nat :=
  let s1 := { s with current_page := s.current_page.next }
  if s1.current_page = AppPage.Config ∧ s1.configs = none ∧ s1.loading = false then
    (s1.load_configs r, 1)
  else
    (s1, 0)

/-- `AppState::previous_page`, instrumented the same way: the source only
moves the page, so the call count is 0. -/
def AppState.previous_page (s : AppState) : AppState × Nat :=
  ({ s with current_page := s.current_page.previous }, 0)

/-- `AppState::scroll_down`: `u16::saturating_add 1`, then the scrollbar
position is synchronized to the new offset. -/
def AppState.scroll_down (s : AppState) : AppState :=
  let s1 := { s with scroll_offset := min (s.scroll_offset + 1) 65535 }
  { s1 with scroll_state := s1.scroll_state.setPosition s1.scroll_offset }

/-- `AppState::scroll_up`: `u16::saturating_sub 1` (truncated `Nat`
subtraction), then the scrollbar position is synchronized. -/
def AppState.scroll_up (s : AppState) : AppState :=
  let s1 := { s with scroll_offset := s.scroll_offset - 1 }
  { s1 with scroll_state := s1.scroll_state.setPosition s1.scroll_offset }

/-- `AppState::total_lines`: the pretty-printed config line count as a
`u16` (`as u16` truncates modulo 65536), 0 with no config loaded. -/
def AppState.total_lines (s : AppState) : Nat :=
  match s.configs with
  | some c => (rustLines (to_string_pretty c)).length % 65536
  | none => 0

/-- Character-list version of `joinNl`. -/
def charJoin : List (List Char) → List Char
  | [] => []
  | [x] => x
  | x :: xs => x ++ '\n' :: charJoin xs

/-- Well-formed log line: nonempty, holds no newline, does not end in a
carriage return.  `rustLines` and `joinNl` are mutually inverse on lists of
such lines. -/
def goodLine (l : String) : Prop :=
  l ≠ "" ∧ '\n' ∉ l.data ∧ l.data.getLast? ≠ some '\r'

instance : DecidablePred goodLine := fun l => by
  unfold goodLine
  infer_instance

/-- Per-line SSE extraction, line by line, as §4.4 of the spec words it:
meta lines are dropped, a data-payload prefix is stripped together with the
whitespace right after it, other lines pass through unchanged, and lines
that end up empty yield nothing.  `parse_sse_logs` is proved equal to the
`filterMap` of this function. -/
def sseLineSpec (line : String) : Option String :=
  if rustStartsWith line "event:" || rustStartsWith line "id:" || rustStartsWith line "retry:" then
    none
  else
    let content :=
      if rustStartsWith line "data:" then rustTrimStart (rustStripPrefixOr line "data:")
      else line
    if content = "" then none else some content

/-- Session state on the Config page showing a two-line document, scrolled
to its last renderable line (offset 1). -/
def stateAtLastLine : AppState :=
  { AppState.new with
      current_page := .Config
      configs := some (Value.mk "line one\nline two")
      scroll_offset := 1 }

/-- Session state that already holds a loaded config document. -/
def stateWithConfig : AppState :=
  { AppState.new with configs := some (Value.mk "port: 7890") }

/-- Session state that already holds an accumulated log buffer. -/
def stateWithLogs : AppState :=
  { AppState.new with logs := some "old line" }

/-- Log buffer content of exactly 1000 (well-formed) lines. -/
def fullBuffer : List String :=
  List.replicate 1000 "x"

/-- Session state whose log buffer holds exactly 1000 lines. -/
def stateWithFullBuffer : AppState :=
  { AppState.new with logs := some (joinNl fullBuffer) }

/-- Session state with a small two-line log buffer, for witnesses. -/
def stateWithTwoLines : AppState :=
  { AppState.new with logs := some (joinNl ["a", "b"]) }

/-! Lemmas about the line primitives. -/

theorem splitNlCore_append_nl (xs ys : List Char) :
    splitNlCore (xs ++ '\n' :: ys) =
      ((splitNlCore xs).1, (splitNlCore xs).2 ++ splitNl ys) := by
  induction xs with
  | nil => simp [splitNlCore, splitNl]
  | cons c rest ih =>
    by_cases hc : c = '\n' <;> simp [splitNlCore, ih, hc]

theorem splitNl_append_nl (xs ys : List Char) :
    splitNl (xs ++ '\n' :: ys) = splitNl xs ++ splitNl ys := by
  simp [splitNl, splitNlCore_append_nl]

theorem splitNlCore_no_nl (xs : List Char) (h : '\n' ∉ xs) :
    splitNlCore xs = (xs, []) := by
  induction xs with
  | nil => rfl
  | cons c rest ih =>
    simp only [List.mem_cons, not_or] at h
    have hc : ¬ c = '\n' := fun e => h.1 e.symm
    simp [splitNlCore, hc, ih h.2]

theorem splitNl_no_nl (xs : List Char) (h : '\n' ∉ xs) : splitNl xs = [xs] := by
  simp [splitNl, splitNlCore_no_nl xs h]

theorem splitNl_cons_nl (rest : List Char) :
    splitNl ('\n' :: rest) = [] :: splitNl rest := by
  simp [splitNl, splitNlCore]

theorem splitNl_cons_of_ne (c : Char) (rest : List Char) (h : ¬ c = '\n') :
    splitNl (c :: rest) = (c :: (splitNlCore rest).1) :: (splitNlCore rest).2 := by
  simp [splitNl, splitNlCore, h]

theorem no_nl_of_mem_splitNl (xs : List Char) : ∀ seg ∈ splitNl xs, '\n' ∉ seg := by
  induction xs with
  | nil =>
    intro seg h
    simp [splitNl, splitNlCore] at h
    simp [h]
  | cons c rest ih =>
    intro seg h
    by_cases hc : c = '\n'
    · subst hc
      rw [splitNl_cons_nl] at h
      rcases List.mem_cons.1 h with h | h
      · simp [h]
      · exact ih seg h
    · rw [splitNl_cons_of_ne c rest hc] at h
      rcases List.mem_cons.1 h with h | h
      · subst h
        intro hm
        rcases List.mem_cons.1 hm with h' | h'
        · exact hc h'.symm
        · exact ih (splitNlCore rest).1 (List.mem_cons_self _ _) h'
      · exact ih seg (List.mem_cons.2 (Or.inr h))

theorem mem_of_mem_splitNl (xs : List Char) :
    ∀ seg ∈ splitNl xs, ∀ c ∈ seg, c ∈ xs := by
  induction xs with
  | nil =>
    intro seg h
    simp [splitNl, splitNlCore] at h
    simp [h]
  | cons a rest ih =>
    intro seg h c hc
    by_cases ha : a = '\n'
    · subst ha
      rw [splitNl_cons_nl] at h
      rcases List.mem_cons.1 h with h | h
      · subst h; simp at hc
      · exact List.mem_cons.2 (Or.inr (ih seg h c hc))
    · rw [splitNl_cons_of_ne a rest ha] at h
      rcases List.mem_cons.1 h with h | h
      · subst h
        rcases List.mem_cons.1 hc with h' | h'
        · exact List.mem_cons.2 (Or.inl h')
        · exact List.mem_cons.2
            (Or.inr (ih (splitNlCore rest).1 (List.mem_cons_self _ _) c h'))
      · exact List.mem_cons.2 (Or.inr (ih seg (List.mem_cons.2 (Or.inr h)) c hc))

theorem mem_of_getLast?_eq_some {l : List Char} {a : Char} (h : l.getLast? = some a) :
    a ∈ l := by
  obtain ⟨hne, rfl⟩ := List.mem_getLast?_eq_getLast h
  exact List.getLast_mem hne

theorem stripCr_eq_self {seg : List Char} (h : seg.getLast? ≠ some '\r') :
    stripCr seg = seg :=
  if_neg h

theorem stripCr_subset (seg : List Char) : stripCr seg ⊆ seg := by
  unfold stripCr
  by_cases h : seg.getLast? = some '\r'
  · simp only [if_pos h]
    exact (List.dropLast_sublist seg).subset
  · simp [if_neg h]

theorem linesFromSegs_cons_cons (a b : List Char) (t : List (List Char)) :
    linesFromSegs (a :: b :: t) = stripCr a :: linesFromSegs (b :: t) := rfl

theorem linesFromSegs_append (l₁ : List (List Char)) (b : List Char)
    (t : List (List Char)) :
    linesFromSegs (l₁ ++ b :: t) = l₁.map stripCr ++ linesFromSegs (b :: t) := by
  induction l₁ with
  | nil => rfl
  | cons a l ih =>
    cases l with
    | nil => simp [linesFromSegs_cons_cons]
    | cons x l' =>
      have : (a :: x :: l') ++ b :: t = a :: ((x :: l') ++ b :: t) := rfl
      rw [this, List.cons_append, linesFromSegs_cons_cons, ← List.cons_append, ih]
      simp

theorem linesFromSegs_length_le (segs : List (List Char)) :
    (linesFromSegs segs).length ≤ segs.length := by
  induction segs with
  | nil => simp [linesFromSegs]
  | cons a t ih =>
    cases t with
    | nil =>
      by_cases h : a = [] <;> simp [linesFromSegs, h]
    | cons b t' =>
      rw [linesFromSegs_cons_cons]
      simpa using Nat.succ_le_succ ih

theorem linesFromSegs_eq_self (segs : List (List Char)) (hne : segs ≠ [])
    (hgood : ∀ x ∈ segs, x ≠ [] ∧ x.getLast? ≠ some '\r') :
    linesFromSegs segs = segs := by
  induction segs with
  | nil => exact absurd rfl hne
  | cons a t ih =>
    cases t with
    | nil =>
      have := (hgood a (List.mem_cons_self _ _)).1
      simp [linesFromSegs, this]
    | cons b t' =>
      rw [linesFromSegs_cons_cons,
        stripCr_eq_self (hgood a (List.mem_cons_self _ _)).2,
        ih (by simp) (fun x hx => hgood x (List.mem_cons.2 (Or.inr hx)))]

theorem no_nl_of_mem_linesFromSegs (segs : List (List Char))
    (h : ∀ x ∈ segs, '\n' ∉ x) : ∀ y ∈ linesFromSegs segs, '\n' ∉ y := by
  revert h
  induction segs with
  | nil => intro h y hy; simp [linesFromSegs] at hy
  | cons a t ih =>
    intro h y hy
    cases t with
    | nil =>
      by_cases ha : a = []
      · simp [linesFromSegs, ha] at hy
      · simp only [linesFromSegs, if_neg ha, List.mem_singleton] at hy
        rw [hy]
        exact h a (List.mem_cons_self _ _)
    | cons b t' =>
      rw [linesFromSegs_cons_cons] at hy
      rcases List.mem_cons.1 hy with hy | hy
      · subst hy
        intro hm
        exact h a (List.mem_cons_self _ _) (stripCr_subset a hm)
      · exact ih (fun x hx => h x (List.mem_cons.2 (Or.inr hx))) y hy

theorem mem_of_mem_linesFromSegs (segs : List (List Char)) :
    ∀ y ∈ linesFromSegs segs, ∀ c ∈ y, ∃ x ∈ segs, c ∈ x := by
  induction segs with
  | nil => intro y hy; simp [linesFromSegs] at hy
  | cons a t ih =>
    intro y hy c hc
    cases t with
    | nil =>
      by_cases ha : a = []
      · simp [linesFromSegs, ha] at hy
      · simp only [linesFromSegs, if_neg ha, List.mem_singleton] at hy
        rw [hy] at hc
        exact ⟨a, List.mem_cons_self _ _, hc⟩
    | cons b t' =>
      rw [linesFromSegs_cons_cons] at hy
      rcases List.mem_cons.1 hy with hy | hy
      · subst hy
        exact ⟨a, List.mem_cons_self _ _, stripCr_subset a hc⟩
      · obtain ⟨x, hx, hcx⟩ := ih y hy c hc
        exact ⟨x, List.mem_cons.2 (Or.inr hx), hcx⟩

theorem data_joinNl (ls : List String) :
    (joinNl ls).data = charJoin (ls.map String.data) := by
  induction ls with
  | nil => rfl
  | cons x xs ih =>
    cases xs with
    | nil => rfl
    | cons y ys =>
      show (x ++ "\n" ++ joinNl (y :: ys)).data
          = x.data ++ '\n' :: charJoin ((y :: ys).map String.data)
      rw [String.data_append, String.data_append, ih]
      simp

theorem splitNl_charJoin (ls : List (List Char)) (hne : ls ≠ [])
    (h : ∀ x ∈ ls, '\n' ∉ x) : splitNl (charJoin ls) = ls := by
  induction ls with
  | nil => exact absurd rfl hne
  | cons x xs ih =>
    cases xs with
    | nil =>
      show splitNl x = [x]
      exact splitNl_no_nl x (h x (List.mem_cons_self _ _))
    | cons y ys =>
      show splitNl (x ++ '\n' :: charJoin (y :: ys)) = x :: y :: ys
      rw [splitNl_append_nl, splitNl_no_nl x (h x (List.mem_cons_self _ _)),
        ih (by simp) (fun z hz => h z (List.mem_cons.2 (Or.inr hz)))]
      rfl

theorem string_mk_data (s : String) : String.mk s.data = s := rfl

theorem map_mk_map_data (ls : List String) :
    (ls.map String.data).map String.mk = ls := by
  rw [List.map_map]
  have : (String.mk ∘ String.data) = id := funext fun _ => rfl
  rw [this, List.map_id]

theorem rustLines_joinNl (ls : List String) (hne : ls ≠ [])
    (hgood : ∀ l ∈ ls, goodLine l) : rustLines (joinNl ls) = ls := by
  have hmapne : ls.map String.data ≠ [] := by
    simpa using hne
  have hnl : ∀ x ∈ ls.map String.data, '\n' ∉ x := by
    intro x hx
    obtain ⟨l, hl, rfl⟩ := List.mem_map.1 hx
    exact (hgood l hl).2.1
  unfold rustLines
  rw [data_joinNl, splitNl_charJoin (ls.map String.data) hmapne hnl,
    linesFromSegs_eq_self (ls.map String.data) hmapne ?_, map_mk_map_data]
  intro x hx
  obtain ⟨l, hl, rfl⟩ := List.mem_map.1 hx
  refine ⟨fun h => (hgood l hl).1 ?_, (hgood l hl).2.2⟩
  exact String.ext h

theorem rustLines_nil : rustLines "" = [] := rfl

theorem no_nl_of_mem_rustLines (s : String) : ∀ l ∈ rustLines s, '\n' ∉ l.data := by
  intro l hl
  obtain ⟨seg, hseg, rfl⟩ := List.mem_map.1 hl
  exact no_nl_of_mem_linesFromSegs (splitNl s.data)
    (no_nl_of_mem_splitNl s.data) seg hseg

theorem mem_data_of_mem_rustLines (s : String) :
    ∀ l ∈ rustLines s, ∀ c ∈ l.data, c ∈ s.data := by
  intro l hl c hc
  obtain ⟨seg, hseg, rfl⟩ := List.mem_map.1 hl
  obtain ⟨x, hx, hcx⟩ := mem_of_mem_linesFromSegs (splitNl s.data) seg hseg c hc
  exact mem_of_mem_splitNl s.data x hx c hcx

theorem rustLines_joinNl_length_le (ls : List String)
    (h : ∀ x ∈ ls, '\n' ∉ x.data) : (rustLines (joinNl ls)).length ≤ ls.length := by
  cases ls with
  | nil => simp [joinNl, rustLines_nil]
  | cons x xs =>
    have hnl : ∀ y ∈ (x :: xs).map String.data, '\n' ∉ y := by
      intro y hy
      obtain ⟨l, hl, rfl⟩ := List.mem_map.1 hy
      exact h l hl
    unfold rustLines
    rw [data_joinNl, splitNl_charJoin ((x :: xs).map String.data) (by simp) hnl]
    calc ((linesFromSegs ((x :: xs).map String.data)).map String.mk).length
        = (linesFromSegs ((x :: xs).map String.data)).length := List.length_map _ _
      _ ≤ ((x :: xs).map String.data).length := linesFromSegs_length_le _
      _ = (x :: xs).length := List.length_map _ _

theorem limit_log_lines_of_le (s : String) (n : Nat)
    (h : (rustLines s).length ≤ n) : limit_log_lines s n = s := by
  simp [limit_log_lines, h]

theorem rustLines_limit_length_le (s : String) (n : Nat) :
    (rustLines (limit_log_lines s n)).length ≤ n := by
  by_cases h : (rustLines s).length ≤ n
  · rw [limit_log_lines_of_le s n h]
    exact h
  · simp only [limit_log_lines, if_neg h]
    have hd : ∀ x ∈ (rustLines s).drop ((rustLines s).length - n), '\n' ∉ x.data :=
      fun x hx => no_nl_of_mem_rustLines s x (List.drop_subset _ _ hx)
    calc (rustLines (joinNl ((rustLines s).drop ((rustLines s).length - n)))).length
        ≤ ((rustLines s).drop ((rustLines s).length - n)).length :=
          rustLines_joinNl_length_le _ hd
      _ ≤ n := by
          rw [List.length_drop]
          omega

theorem limit_log_lines_joinNl (ls : List String) (n : Nat)
    (hgood : ∀ l ∈ ls, goodLine l) :
    limit_log_lines (joinNl ls) n = joinNl (ls.drop (ls.length - n)) := by
  cases hls : ls with
  | nil => simp [joinNl, limit_log_lines, rustLines_nil]
  | cons x xs =>
    rw [← hls]
    have hne : ls ≠ [] := by simp [hls]
    have hlines := rustLines_joinNl ls hne hgood
    by_cases h : ls.length ≤ n
    · rw [limit_log_lines_of_le (joinNl ls) n (by rw [hlines]; exact h)]
      have : ls.length - n = 0 := by omega
      rw [this, List.drop_zero]
    · simp only [limit_log_lines, hlines, if_neg h]

theorem joinNl_append (ls ms : List String) (h1 : ls ≠ []) (h2 : ms ≠ []) :
    joinNl (ls ++ ms) = joinNl ls ++ "\n" ++ joinNl ms := by
  induction ls with
  | nil => exact absurd rfl h1
  | cons x l ih =>
    cases l with
    | nil =>
      cases ms with
      | nil => exact absurd rfl h2
      | cons m ms' => rfl
    | cons y l' =>
      show joinNl (x :: ((y :: l') ++ ms)) = (x ++ "\n" ++ joinNl (y :: l')) ++ "\n" ++ joinNl ms
      have hcons : joinNl (x :: ((y :: l') ++ ms)) = x ++ "\n" ++ joinNl ((y :: l') ++ ms) := rfl
      rw [hcons, ih (by simp)]
      apply String.ext
      simp [String.data_append]

theorem map_stripCr_eq_self (segs : List (List Char))
    (h : ∀ x ∈ segs, x.getLast? ≠ some '\r') : segs.map stripCr = segs := by
  induction segs with
  | nil => rfl
  | cons a t ih =>
    rw [List.map_cons, stripCr_eq_self (h a (List.mem_cons_self _ _)),
      ih (fun x hx => h x (List.mem_cons.2 (Or.inr hx)))]

theorem rustLines_joinNl_newline (ls : List String) (hne : ls ≠ [])
    (hgood : ∀ l ∈ ls, goodLine l) : rustLines (joinNl ls ++ "\n") = ls := by
  have hmapne : ls.map String.data ≠ [] := by simpa using hne
  have hnl : ∀ x ∈ ls.map String.data, '\n' ∉ x := by
    intro x hx
    obtain ⟨l, hl, rfl⟩ := List.mem_map.1 hx
    exact (hgood l hl).2.1
  have hdata : (joinNl ls ++ "\n").data = charJoin (ls.map String.data) ++ '\n' :: [] := by
    rw [String.data_append, data_joinNl]
  unfold rustLines
  rw [hdata, splitNl_append_nl, splitNl_charJoin (ls.map String.data) hmapne hnl]
  have hsplitnil : splitNl ([] : List Char) = [[]] := rfl
  rw [hsplitnil, linesFromSegs_append (ls.map String.data) [] []]
  have hlast : linesFromSegs [([] : List Char)] = [] := rfl
  rw [hlast, List.append_nil,
    map_stripCr_eq_self (ls.map String.data) ?_, map_mk_map_data]
  intro x hx
  obtain ⟨l, hl, rfl⟩ := List.mem_map.1 hx
  exact (hgood l hl).2.2

theorem rustLines_joinNl_append (els cs : List String) (hne : els ≠ [])
    (hels : ∀ l ∈ els, goodLine l) (hcs : ∀ l ∈ cs, goodLine l) :
    rustLines (joinNl els ++ "\n" ++ joinNl cs) = els ++ cs := by
  cases cs with
  | nil =>
    have : joinNl els ++ "\n" ++ joinNl ([] : List String) = joinNl els ++ "\n" := by
      apply String.ext
      simp [String.data_append, joinNl]
    rw [this, rustLines_joinNl_newline els hne hels, List.append_nil]
  | cons c cs' =>
    rw [← joinNl_append els (c :: cs') hne (by simp)]
    exact rustLines_joinNl (els ++ c :: cs') (by simp [hne]) (by
      intro l hl
      rcases List.mem_append.1 hl with h | h
      · exact hels l h
      · exact hcs l h)

theorem rustLines_limit (s : String) (n : Nat)
    (hgood : ∀ l ∈ rustLines s, goodLine l) :
    rustLines (limit_log_lines s n) = (rustLines s).drop ((rustLines s).length - n) := by
  by_cases h : (rustLines s).length ≤ n
  · rw [limit_log_lines_of_le s n h]
    have h0 : (rustLines s).length - n = 0 := by omega
    rw [h0, List.drop_zero]
  · simp only [limit_log_lines, if_neg h]
    by_cases hd : (rustLines s).drop ((rustLines s).length - n) = []
    · rw [hd]
      exact rustLines_nil
    · exact rustLines_joinNl _ hd (fun l hl => hgood l (List.drop_subset _ _ hl))

theorem rustLines_limit_joinNl (ls : List String) (n : Nat)
    (hgood : ∀ l ∈ ls, goodLine l) :
    rustLines (limit_log_lines (joinNl ls) n) = ls.drop (ls.length - n) := by
  rw [limit_log_lines_joinNl ls n hgood]
  by_cases h : ls.drop (ls.length - n) = []
  · rw [h]
    exact rustLines_nil
  · exact rustLines_joinNl _ h (fun l hl => hgood l (List.drop_subset _ _ hl))

theorem string_append_ne_empty (a b : String) (ha : a.length ≠ 0) : a ++ b ≠ "" := by
  intro h
  have hl := congrArg String.length h
  rw [String.length_append] at hl
  simp [String.length_empty] at hl
  omega

theorem load_configs_current_page (s : AppState) (r : ConfigsResult) :
    (s.load_configs r).current_page = s.current_page := by
  cases r <;> rfl

theorem scroll_down_iterate (k : Nat) (s : AppState) (h : s.scroll_offset ≤ 65535) :
    (AppState.scroll_down^[k] s).scroll_offset = min (s.scroll_offset + k) 65535 := by
  induction k generalizing s with
  | zero => simp; omega
  | succ k ih =>
    rw [Function.iterate_succ_apply]
    have hstep : (s.scroll_down).scroll_offset = min (s.scroll_offset + 1) 65535 := rfl
    rw [ih s.scroll_down (by rw [hstep]; omega), hstep]
    omega

theorem sseLineStep_eq_toList (acc : List String) (line : String) :
    sseLineStep acc line = acc ++ (sseLineSpec line).toList := by
  unfold sseLineStep sseLineSpec
  by_cases h1 : (rustStartsWith line "event:" || rustStartsWith line "id:"
      || rustStartsWith line "retry:") = true
  · simp [h1]
  · by_cases h2 : (if rustStartsWith line "data:"
        then rustTrimStart (rustStripPrefixOr line "data:") else line) = ""
    · simp [h1, h2]
    · simp [h1, h2]

theorem sseLines_eq_filterMap (sse_data : String) :
    sseLines sse_data = (rustLines sse_data).filterMap sseLineSpec := by
  suffices h : ∀ (lines acc : List String),
      lines.foldl sseLineStep acc = acc ++ lines.filterMap sseLineSpec by
    simpa using h (rustLines sse_data) []
  intro lines
  induction lines with
  | nil => intro acc; simp
  | cons x xs ih =>
    intro acc
    rw [List.foldl_cons, ih, sseLineStep_eq_toList]
    cases h : sseLineSpec x <;> simp [List.filterMap_cons, h]

theorem mem_trimStrip (line pat : String) :
    ∀ c ∈ (rustTrimStart (rustStripPrefixOr line pat)).data, c ∈ line.data := by
  intro c hc
  unfold rustTrimStart rustStripPrefixOr at hc
  by_cases h : pat.data.isPrefixOf line.data
  · simp only [if_pos h] at hc
    exact List.drop_subset _ _ ((List.dropWhile_sublist _).subset hc)
  · simp only [if_neg h] at hc
    exact (List.dropWhile_sublist _).subset hc

theorem sseLines_good (text : String) (hcr : '\r' ∉ text.data) :
    ∀ l ∈ sseLines text, goodLine l := by
  intro l hl
  rw [sseLines_eq_filterMap] at hl
  obtain ⟨line, hline, hspec⟩ := List.mem_filterMap.1 hl
  unfold sseLineSpec at hspec
  by_cases h1 : (rustStartsWith line "event:" || rustStartsWith line "id:"
      || rustStartsWith line "retry:") = true
  · rw [if_pos h1] at hspec
    exact absurd hspec (by simp)
  · rw [if_neg h1] at hspec
    by_cases h2 : (if rustStartsWith line "data:"
        then rustTrimStart (rustStripPrefixOr line "data:") else line) = ""
    · rw [if_pos h2] at hspec
      exact absurd hspec (by simp)
    · rw [if_neg h2] at hspec
      have hl2 : (if rustStartsWith line "data:"
          then rustTrimStart (rustStripPrefixOr line "data:") else line) = l :=
        Option.some.inj hspec
      have hmem : ∀ c ∈ l.data, c ∈ line.data := by
        rw [← hl2]
        by_cases hd : rustStartsWith line "data:" = true
        · rw [if_pos hd]
          exact mem_trimStrip line "data:"
        · rw [if_neg hd]
          intro c hc
          exact hc
      refine ⟨by rw [← hl2]; exact h2, ?_, ?_⟩
      · intro hn
        exact no_nl_of_mem_rustLines text line hline (hmem '\n' hn)
      · intro hr
        exact hcr (mem_data_of_mem_rustLines text line hline '\r'
          (hmem '\r' (mem_of_getLast?_eq_some hr)))

theorem load_logs_ok_lines (s : AppState) (text : String) (els : List String)
    (hlog : s.logs = some (joinNl els)) (hne : els ≠ [])
    (hgood : ∀ l ∈ els, goodLine l) (hcr : '\r' ∉ text.data) :
    rustLines (((s.load_logs (.ok text)).logs).getD "")
      = (els ++ (sseLines text).drop ((sseLines text).length - 1000)).drop
          ((els ++ (sseLines text).drop ((sseLines text).length - 1000)).length - 1000) := by
  have hpsgood : ∀ l ∈ sseLines text, goodLine l := sseLines_good text hcr
  have hparse : parse_sse_logs text = joinNl (sseLines text) := rfl
  have hcsgood : ∀ l ∈ (sseLines text).drop ((sseLines text).length - 1000), goodLine l :=
    fun l hl => hpsgood l (List.drop_subset _ _ hl)
  have hlimitchunk : limit_log_lines (parse_sse_logs text) 1000
      = joinNl ((sseLines text).drop ((sseLines text).length - 1000)) := by
    rw [hparse]
    exact limit_log_lines_joinNl (sseLines text) 1000 hpsgood
  have heq1 : (s.load_logs (.ok text)).logs
      = some (limit_log_lines
          (joinNl els ++ "\n" ++ limit_log_lines (parse_sse_logs text) 1000) 1000) := by
    simp [AppState.load_logs, hlog]
  have hallgood : ∀ l ∈ els ++ (sseLines text).drop ((sseLines text).length - 1000),
      goodLine l := by
    intro l hl
    rcases List.mem_append.1 hl with h | h
    · exact hgood l h
    · exact hcsgood l h
  have hcomb : rustLines (joinNl els ++ "\n"
      ++ joinNl ((sseLines text).drop ((sseLines text).length - 1000)))
      = els ++ (sseLines text).drop ((sseLines text).length - 1000) :=
    rustLines_joinNl_append els _ hne hgood hcsgood
  rw [heq1, Option.getD_some, hlimitchunk,
    rustLines_limit _ 1000 (by rw [hcomb]; exact hallgood), hcomb]

theorem fullBuffer_good : ∀ l ∈ fullBuffer, goodLine l := by
  intro l hl
  rw [List.eq_of_mem_replicate hl]
  decide

theorem fullBuffer_length : fullBuffer.length = 1000 :=
  List.length_replicate 1000 "x"

theorem fullBuffer_ne_nil : fullBuffer ≠ [] := by
  intro h
  have hl := congrArg List.length h
  rw [fullBuffer_length] at hl
  simp at hl

/-! The claims. -/

/-- C7: on the four-page set, `next` and `previous` are total, stay inside
the set, and are mutually inverse (`previous (next p) = p` and
`next (previous p) = p`); hence any sequence of next/previous page moves
keeps the current page a member of the set. -/
theorem C7_theorem :
    (∀ p : AppPage,
      p.next.previous = p ∧ p.previous.next = p
      ∧ p.next ∈ [AppPage.Proxy, AppPage.Log, AppPage.Settings, AppPage.Config]
      ∧ p.previous ∈ [AppPage.Proxy, AppPage.Log, AppPage.Settings, AppPage.Config])
    ∧ ∀ (moves : List Bool) (p : AppPage),
        (moves.foldl (fun q m => if m then q.next else q.previous) p)
          ∈ [AppPage.Proxy, AppPage.Log, AppPage.Settings, AppPage.Config] := by
  constructor
  · intro p
    cases p <;> decide
  · intro moves p
    induction moves generalizing p with
    | nil => cases p <;> decide
    | cons m ms ih => exact ih _

/-- C1 counterexample: from the initial state (page Proxy, no configs
loaded, no load in flight), `previous_page` moves into the Config page yet
performs zero configuration loads, although the claim demands exactly one
load whenever Config is entered with `configs = none` and `loading =
false`. -/
theorem C1_counterexample :
    AppState.new.configs = none
    ∧ AppState.new.loading = false
    ∧ (AppState.new.previous_page).1.current_page = AppPage.Config
    ∧ (AppState.new.previous_page).2 = 0 := by
  decide

/-- C1 as amended: only `next_page` applies the Config auto-load side
effect — it performs exactly one load if and only if the page it moves into
is Config while `configs` is none and `loading` is false, and no load
otherwise; `previous_page` only moves the page and never triggers a load,
even when it lands on Config. -/
theorem C1_theorem :
    ∀ (s : AppState) (r : ConfigsResult),
      (s.next_page r).1.current_page = s.current_page.next
      ∧ (s.next_page r).2 =
          (if s.current_page.next = AppPage.Config ∧ s.configs = none ∧ s.loading = false
           then 1 else 0)
      ∧ (s.previous_page).1.current_page = s.current_page.previous
      ∧ (s.previous_page).2 = 0 := by
  intro s r
  refine ⟨?_, ?_, rfl, rfl⟩
  · by_cases h : s.current_page.next = AppPage.Config ∧ s.configs = none ∧ s.loading = false
    · simp only [AppState.next_page, h, and_self, if_true]
      rw [load_configs_current_page]
    · simp only [AppState.next_page]
      rw [if_neg h]
  · by_cases h : s.current_page.next = AppPage.Config ∧ s.configs = none ∧ s.loading = false
    · simp only [AppState.next_page, h, and_self, if_true]
    · simp only [AppState.next_page]
      rw [if_neg h, if_neg h]

/-- C3 counterexample: with a two-line config document displayed and the
offset already at the last renderable line (index 1), `scroll_down` moves
the offset to 2 — past the last line — instead of clamping: the controller
imposes no content-derived bound. -/
theorem C3_counterexample :
    stateAtLastLine.total_lines = 2
    ∧ stateAtLastLine.scroll_offset = stateAtLastLine.total_lines - 1
    ∧ (stateAtLastLine.scroll_down).scroll_offset = 2
    ∧ ¬ (stateAtLastLine.scroll_down).scroll_offset ≤ stateAtLastLine.total_lines - 1 := by
  decide

/-- C3 as amended: `scroll_down` always increments the offset, saturating
only at the `u16` bound 65535 and never at the displayed content's last
line (clipping past the content is left to the renderer); `scroll_up`
decrements saturating at zero; both keep the scrollbar position equal to
the new offset. -/
theorem C3_theorem :
    ∀ s : AppState,
      (s.scroll_down).scroll_offset = min (s.scroll_offset + 1) 65535
      ∧ (s.scroll_down).scroll_state.pos = min (s.scroll_offset + 1) 65535
      ∧ (s.scroll_up).scroll_offset = s.scroll_offset - 1
      ∧ (s.scroll_up).scroll_state.pos = s.scroll_offset - 1 := by
  intro s
  exact ⟨rfl, rfl, rfl, rfl⟩

/-- C4: a failed `load_configs` leaves a previously loaded document in
place, stores a non-empty formatted message in `error`, and clears
`loading`; a subsequent successful `load_configs` stores the new document,
clears `error`, and clears `loading`. -/
theorem C4_theorem :
    ∀ (s : AppState) (D Dn : Value) (e : String),
      (s.configs = some D →
        (s.load_configs (.err e)).configs = some D
        ∧ (s.load_configs (.err e)).error = some ("Failed to load configs: " ++ e)
        ∧ ("Failed to load configs: " ++ e) ≠ ""
        ∧ (s.load_configs (.err e)).loading = false)
      ∧ ((s.load_configs (.ok Dn)).configs = some Dn
        ∧ (s.load_configs (.ok Dn)).error = none
        ∧ (s.load_configs (.ok Dn)).loading = false) := by
  intro s D Dn e
  refine ⟨fun h => ⟨?_, rfl, ?_, rfl⟩, rfl, rfl, rfl⟩
  · show s.configs = some D
    exact h
  · exact string_append_ne_empty "Failed to load configs: " e (by decide)

/-- C4 witness at a concrete state holding a document, a concrete failure
and then a concrete success. -/
theorem C4_witness :
    (stateWithConfig.load_configs (.err "connection refused")).configs
        = some (Value.mk "port: 7890")
    ∧ (stateWithConfig.load_configs (.err "connection refused")).error
        = some ("Failed to load configs: " ++ "connection refused")
    ∧ ("Failed to load configs: " ++ "connection refused") ≠ ""
    ∧ (stateWithConfig.load_configs (.err "connection refused")).loading = false
    ∧ (stateWithConfig.load_configs (.ok (Value.mk "mode: rule"))).configs
        = some (Value.mk "mode: rule")
    ∧ (stateWithConfig.load_configs (.ok (Value.mk "mode: rule"))).error = none
    ∧ (stateWithConfig.load_configs (.ok (Value.mk "mode: rule"))).loading = false := by
  have h := C4_theorem stateWithConfig (Value.mk "port: 7890") (Value.mk "mode: rule")
    "connection refused"
  obtain ⟨h1, h2, h3, h4⟩ := h.1 rfl
  exact ⟨h1, h2, h3, h4, h.2.1, h.2.2.1, h.2.2.2⟩

/-- C8 counterexample: the offset is a `u16` updated with
`saturating_add`, so 65536 repetitions of `scroll_down` from offset 0
yield 65535, not 65536 — the claim's "offset N for every natural N, with no
clamping by the controller" fails at N = 65536. -/
theorem C8_counterexample :
    (AppState.scroll_down^[65536] AppState.new).scroll_offset ≠ 65536
    ∧ (AppState.scroll_down^[65536] AppState.new).scroll_offset = 65535 := by
  have h : (AppState.scroll_down^[65536] AppState.new).scroll_offset
      = min (AppState.new.scroll_offset + 65536) 65535 :=
    scroll_down_iterate 65536 AppState.new (by decide)
  have h0 : AppState.new.scroll_offset = 0 := rfl
  rw [h0] at h
  rw [h]
  exact ⟨by omega, by omega⟩

/-- C8 as amended: `scroll_up` from offset 0 leaves the offset at 0 (no
underflow), N repetitions of `scroll_down` from offset 0 yield offset
`min N 65535` — exactly N until the `u16` saturation bound, where the
controller's saturating arithmetic clamps — and every scroll call sets the
scrollbar position to the new offset. -/
theorem C8_theorem :
    ∀ (s : AppState) (N : Nat), s.scroll_offset = 0 →
      (s.scroll_up).scroll_offset = 0
      ∧ (s.scroll_up).scroll_state.pos = 0
      ∧ (AppState.scroll_down^[N] s).scroll_offset = min N 65535
      ∧ (∀ t : AppState,
          (t.scroll_down).scroll_state.pos = (t.scroll_down).scroll_offset
          ∧ (t.scroll_up).scroll_state.pos = (t.scroll_up).scroll_offset) := by
  intro s N h
  refine ⟨?_, ?_, ?_, fun t => ⟨rfl, rfl⟩⟩
  · show s.scroll_offset - 1 = 0
    rw [h]
  · show s.scroll_offset - 1 = 0
    rw [h]
  · rw [scroll_down_iterate N s (by rw [h]; omega), h, Nat.zero_add]

/-- C8 witness: the amended theorem applied at the initial state and
N = 3. -/
theorem C8_witness :
    (AppState.new.scroll_up).scroll_offset = 0
    ∧ (AppState.new.scroll_up).scroll_state.pos = 0
    ∧ (AppState.scroll_down^[3] AppState.new).scroll_offset = min 3 65535
    ∧ (∀ t : AppState,
        (t.scroll_down).scroll_state.pos = (t.scroll_down).scroll_offset
        ∧ (t.scroll_up).scroll_state.pos = (t.scroll_up).scroll_offset) :=
  C8_theorem AppState.new 3 rfl

/-- C10: `limit_log_lines` is the identity on inputs of at most `n` lines,
and is idempotent on every input. -/
theorem C10_theorem :
    ∀ (s : String) (n : Nat),
      ((rustLines s).length ≤ n → limit_log_lines s n = s)
      ∧ limit_log_lines (limit_log_lines s n) n = limit_log_lines s n := by
  intro s n
  exact ⟨limit_log_lines_of_le s n,
    limit_log_lines_of_le _ n (rustLines_limit_length_le s n)⟩

/-- C10 witness: the no-op part at a two-line string under bound 5, the
idempotence part at a three-line string under bound 2. -/
theorem C10_witness :
    limit_log_lines "a\nb" 5 = "a\nb"
    ∧ limit_log_lines (limit_log_lines "a\nb\nc" 2) 2 = limit_log_lines "a\nb\nc" 2 := by
  have h1 := C10_theorem "a\nb" 5
  have h2 := C10_theorem "a\nb\nc" 2
  exact ⟨h1.1 (by decide), h2.2⟩

/-- C6: SSE parsing is the `filterMap` of the per-line extraction (meta
lines beginning with the event, id or retry prefixes dropped, the data
prefix and the whitespace after it stripped, other non-empty lines passed
through, empty results dropped) joined with newlines; on the concrete
payload of the claim it yields exactly the two data lines. -/
theorem C6_theorem :
    (∀ raw : String,
      parse_sse_logs raw = joinNl ((rustLines raw).filterMap sseLineSpec))
    ∧ parse_sse_logs "event: ping\ndata: hello\nid: 5\ndata: world\n" = "hello\nworld" :=
  ⟨fun raw => by rw [parse_sse_logs, sseLines_eq_filterMap], by decide⟩

/-- C9: `load_logs` clears `logs_loading` on every outcome and, on a
transport failure or a body-read failure, appends the formatted error line
to the existing buffer (or makes it the buffer when none exists) instead of
discarding the accumulated logs; being a total function of the state and
the outcome, it raises nothing. -/
theorem C9_theorem :
    ∀ (s : AppState) (e : String),
      (∀ r : LogsResult, (s.load_logs r).logs_loading = false)
      ∧ (s.logs = none →
          (s.load_logs (.readErr e)).logs = some ("Error reading logs: " ++ e)
          ∧ (s.load_logs (.fetchErr e)).logs = some ("Failed to load logs: " ++ e))
      ∧ (∀ existing, s.logs = some existing →
          (s.load_logs (.readErr e)).logs
              = some (existing ++ "\n" ++ ("Error reading logs: " ++ e))
          ∧ (s.load_logs (.fetchErr e)).logs
              = some (existing ++ "\n" ++ ("Failed to load logs: " ++ e))) := by
  intro s e
  refine ⟨fun r => rfl, fun h => ⟨?_, ?_⟩, fun existing h => ⟨?_, ?_⟩⟩ <;>
    simp [AppState.load_logs, h]

/-- C9 witness: the theorem applied at a state with a one-line buffer and
at the empty initial state. -/
theorem C9_witness :
    (stateWithLogs.load_logs (.fetchErr "timeout")).logs_loading = false
    ∧ (stateWithLogs.load_logs (.readErr "timeout")).logs
        = some ("old line" ++ "\n" ++ ("Error reading logs: " ++ "timeout"))
    ∧ (stateWithLogs.load_logs (.fetchErr "timeout")).logs
        = some ("old line" ++ "\n" ++ ("Failed to load logs: " ++ "timeout"))
    ∧ (AppState.new.load_logs (.readErr "timeout")).logs
        = some ("Error reading logs: " ++ "timeout") := by
  have h1 := C9_theorem stateWithLogs "timeout"
  have h2 := C9_theorem AppState.new "timeout"
  exact ⟨h1.1 _, (h1.2.2 "old line" rfl).1, (h1.2.2 "old line" rfl).2, (h2.2.1 rfl).1⟩

/-- C2 counterexample: from a buffer of exactly 1000 lines (at most 1000,
as the claim assumes), a `load_logs` whose fetch fails appends the error
line with no re-bounding, leaving a buffer of 1001 lines — the claimed
1000-line bound does not survive the failure outcomes. -/
theorem C2_counterexample :
    (rustLines (joinNl fullBuffer)).length = 1000
    ∧ (rustLines
        ((stateWithFullBuffer.load_logs (.fetchErr "boom")).logs.getD "")).length
      = 1001 := by
  have hgood : ∀ l ∈ fullBuffer ++ ["Failed to load logs: " ++ "boom"], goodLine l := by
    intro l hl
    rcases List.mem_append.1 hl with h | h
    · exact fullBuffer_good l h
    · rw [List.mem_singleton.1 h]
      decide
  have hr : rustLines (joinNl fullBuffer) = fullBuffer :=
    rustLines_joinNl _ fullBuffer_ne_nil fullBuffer_good
  refine ⟨by rw [hr, fullBuffer_length], ?_⟩
  have hlogs : (stateWithFullBuffer.load_logs (.fetchErr "boom")).logs
      = some (joinNl fullBuffer ++ "\n" ++ ("Failed to load logs: " ++ "boom")) := by
    have hsl : stateWithFullBuffer.logs = some (joinNl fullBuffer) := rfl
    simp [AppState.load_logs, hsl]
  rw [hlogs, Option.getD_some]
  have hj : joinNl fullBuffer ++ "\n" ++ ("Failed to load logs: " ++ "boom")
      = joinNl (fullBuffer ++ ["Failed to load logs: " ++ "boom"]) := by
    rw [joinNl_append fullBuffer ["Failed to load logs: " ++ "boom"]
      fullBuffer_ne_nil (by simp)]
    rfl
  have happ : fullBuffer ++ ["Failed to load logs: " ++ "boom"] ≠ [] := by simp
  rw [hj, rustLines_joinNl _ happ hgood, List.length_append, fullBuffer_length]
  rfl

/-- C2 as amended: after a `load_logs` whose fetch and read succeed the
buffer holds at most 1000 lines (whatever the prior state), and eviction is
FIFO, oldest lines first: on a well-formed prior buffer (given as its
joined line list) the resulting line list is the trailing 1000 lines of the
old lines followed by the bounded new lines — a suffix of old-then-new, so
whatever is dropped are the oldest lines, in order; on the failure
outcomes, however, the error line is appended with no re-bounding, so the
bound is not restored there. -/
theorem C2_theorem :
    ∀ (s : AppState) (text : String),
      (rustLines (((s.load_logs (.ok text)).logs).getD "")).length ≤ 1000
      ∧ (∀ els : List String,
          s.logs = some (joinNl els) → els ≠ [] → (∀ l ∈ els, goodLine l) →
          '\r' ∉ text.data →
          rustLines (((s.load_logs (.ok text)).logs).getD "")
            = (els ++ (sseLines text).drop ((sseLines text).length - 1000)).drop
                ((els ++ (sseLines text).drop ((sseLines text).length - 1000)).length
                  - 1000))
      ∧ (∀ e existing, s.logs = some existing →
          (s.load_logs (.fetchErr e)).logs
              = some (existing ++ "\n" ++ ("Failed to load logs: " ++ e))
          ∧ (s.load_logs (.readErr e)).logs
              = some (existing ++ "\n" ++ ("Error reading logs: " ++ e))) := by
  intro s text
  refine ⟨?_, ?_, ?_⟩
  · cases hl : s.logs with
    | none =>
      have h : (s.load_logs (.ok text)).logs
          = some (limit_log_lines (parse_sse_logs text) 1000) := by
        simp [AppState.load_logs, hl]
      rw [h, Option.getD_some]
      exact rustLines_limit_length_le _ 1000
    | some existing =>
      have h : (s.load_logs (.ok text)).logs
          = some (limit_log_lines
              (existing ++ "\n" ++ limit_log_lines (parse_sse_logs text) 1000) 1000) := by
        simp [AppState.load_logs, hl]
      rw [h, Option.getD_some]
      exact rustLines_limit_length_le _ 1000
  · intro els hlog hne hgood hcr
    exact load_logs_ok_lines s text els hlog hne hgood hcr
  · intro e existing h
    exact ⟨by simp [AppState.load_logs, h], by simp [AppState.load_logs, h]⟩

/-- C2 witness: the amended theorem applied at the 1000-line-buffer state
with a one-data-line payload — the success outcome stays within the bound
and its line list is the oldest-first eviction formula — and at a concrete
failure. -/
theorem C2_witness :
    (rustLines (((stateWithFullBuffer.load_logs (.ok "data: hi\n")).logs).getD "")).length
        ≤ 1000
    ∧ rustLines (((stateWithFullBuffer.load_logs (.ok "data: hi\n")).logs).getD "")
        = (fullBuffer
            ++ (sseLines "data: hi\n").drop ((sseLines "data: hi\n").length - 1000)).drop
            ((fullBuffer
              ++ (sseLines "data: hi\n").drop ((sseLines "data: hi\n").length - 1000)).length
              - 1000)
    ∧ (stateWithFullBuffer.load_logs (.fetchErr "boom")).logs
        = some (joinNl fullBuffer ++ "\n" ++ ("Failed to load logs: " ++ "boom"))
    ∧ (stateWithFullBuffer.load_logs (.readErr "boom")).logs
        = some (joinNl fullBuffer ++ "\n" ++ ("Error reading logs: " ++ "boom")) := by
  have h := C2_theorem stateWithFullBuffer "data: hi\n"
  exact ⟨h.1,
    h.2.1 fullBuffer rfl fullBuffer_ne_nil fullBuffer_good (by decide),
    (h.2.2 "boom" (joinNl fullBuffer) rfl).1,
    (h.2.2 "boom" (joinNl fullBuffer) rfl).2⟩

/-- C5: on a successful fetch against a well-formed existing buffer (given
as its joined line list `els`), `load_logs` bounds the parsed chunk to its
last 1000 lines, appends it to the buffer after a newline separator, and
bounds the concatenation to its last 1000 lines, so the resulting line list
is the trailing 1000 lines of old-then-new; in particular a 1000-line
buffer merged with a 50-line chunk yields the last 950 old lines followed
by all 50 new lines in order; with no existing buffer, the bounded chunk
becomes the buffer. -/
theorem C5_theorem :
    ∀ (s : AppState) (text : String) (els : List String),
      s.logs = some (joinNl els) →
      els ≠ [] →
      (∀ l ∈ els, goodLine l) →
      '\r' ∉ text.data →
      ((s.load_logs (.ok text)).logs
          = some (limit_log_lines
              (joinNl els ++ "\n" ++ limit_log_lines (parse_sse_logs text) 1000) 1000))
      ∧ rustLines (((s.load_logs (.ok text)).logs).getD "")
          = (els ++ (sseLines text).drop ((sseLines text).length - 1000)).drop
              ((els ++ (sseLines text).drop ((sseLines text).length - 1000)).length - 1000)
      ∧ (els.length = 1000 → (sseLines text).length = 50 →
          rustLines (((s.load_logs (.ok text)).logs).getD "")
            = els.drop 50 ++ sseLines text)
      ∧ (∀ s2 : AppState, s2.logs = none →
          (s2.load_logs (.ok text)).logs
            = some (limit_log_lines (parse_sse_logs text) 1000)) := by
  intro s text els hlog hne hgood hcr
  have hpsgood : ∀ l ∈ sseLines text, goodLine l := sseLines_good text hcr
  have hparse : parse_sse_logs text = joinNl (sseLines text) := rfl
  have hcsgood : ∀ l ∈ (sseLines text).drop ((sseLines text).length - 1000), goodLine l :=
    fun l hl => hpsgood l (List.drop_subset _ _ hl)
  have hlimitchunk : limit_log_lines (parse_sse_logs text) 1000
      = joinNl ((sseLines text).drop ((sseLines text).length - 1000)) := by
    rw [hparse]
    exact limit_log_lines_joinNl (sseLines text) 1000 hpsgood
  have heq1 : (s.load_logs (.ok text)).logs
      = some (limit_log_lines
          (joinNl els ++ "\n" ++ limit_log_lines (parse_sse_logs text) 1000) 1000) := by
    simp [AppState.load_logs, hlog]
  have hallgood : ∀ l ∈ els ++ (sseLines text).drop ((sseLines text).length - 1000),
      goodLine l := by
    intro l hl
    rcases List.mem_append.1 hl with h | h
    · exact hgood l h
    · exact hcsgood l h
  have hcomb : rustLines (joinNl els ++ "\n"
      ++ joinNl ((sseLines text).drop ((sseLines text).length - 1000)))
      = els ++ (sseLines text).drop ((sseLines text).length - 1000) :=
    rustLines_joinNl_append els _ hne hgood hcsgood
  have hmain : rustLines (((s.load_logs (.ok text)).logs).getD "")
      = (els ++ (sseLines text).drop ((sseLines text).length - 1000)).drop
          ((els ++ (sseLines text).drop ((sseLines text).length - 1000)).length - 1000) := by
    rw [heq1, Option.getD_some, hlimitchunk,
      rustLines_limit _ 1000 (by rw [hcomb]; exact hallgood), hcomb]
  refine ⟨heq1, hmain, ?_, fun s2 h2 => by simp [AppState.load_logs, h2]⟩
  intro h1000 h50
  have hdrop0 : (sseLines text).length - 1000 = 0 := by omega
  rw [hmain, hdrop0, List.drop_zero]
  have hlen : (els ++ sseLines text).length - 1000 = 50 := by
    rw [List.length_append, h1000, h50]
  rw [hlen, List.drop_append_eq_append_drop]
  have h0 : 50 - els.length = 0 := by omega
  rw [h0, List.drop_zero]

/-- C5 witness: the theorem applied at a two-line buffer and the one-line
payload `data: hi`, all hypotheses discharged by computation. -/
theorem C5_witness :
    ((stateWithTwoLines.load_logs (.ok "data: hi\n")).logs
        = some (limit_log_lines
            (joinNl ["a", "b"] ++ "\n"
              ++ limit_log_lines (parse_sse_logs "data: hi\n") 1000) 1000))
    ∧ rustLines (((stateWithTwoLines.load_logs (.ok "data: hi\n")).logs).getD "")
        = ((["a", "b"] : List String)
            ++ (sseLines "data: hi\n").drop ((sseLines "data: hi\n").length - 1000)).drop
            (((["a", "b"] : List String)
              ++ (sseLines "data: hi\n").drop ((sseLines "data: hi\n").length - 1000)).length
              - 1000)
    ∧ ((["a", "b"] : List String).length = 1000 → (sseLines "data: hi\n").length = 50 →
        rustLines (((stateWithTwoLines.load_logs (.ok "data: hi\n")).logs).getD "")
          = (["a", "b"] : List String).drop 50 ++ sseLines "data: hi\n")
    ∧ (∀ s2 : AppState, s2.logs = none →
        (s2.load_logs (.ok "data: hi\n")).logs
          = some (limit_log_lines (parse_sse_logs "data: hi\n") 1000)) :=
  C5_theorem stateWithTwoLines "data: hi\n" ["a", "b"] rfl (by decide) (by decide) (by decide)

end Yact
